import Mathlib

/-!
Verification development for the `dreye` visual-ecology toolkit.

Each section shallowly embeds the part of the Python source that a
specification claim is about, and proves (or refutes) the claim over
that embedding.  Machine floats are modelled by `ℚ` (or `ℝ` where
transcendental functions appear), fallible code by `Except`/`Option`,
and in-place dictionary mutation by explicit heap passing.
-/

namespace Dreye

/-! ## `dreye.api.optimize.lsq_nonlinear` — failure-count / error policy

Embedding of the tail of `lsq_nonlinear`
(`src/dreye/api/optimize/lsq_nonlinear.py`, lines 102, 160-168): per batch,
`count_failure += int(result.status <= 0)`; after all batches the `error`
policy is applied.
-/

/-- Modelled from the spec: `FAILURE_MESSAGE` lives in
`dreye/api/optimize/utils.py`, which is not part of the provided sources;
the spec states that the warning/exception message carries the failure
count (`FAILURE_MESSAGE.format(count=count_failure)`). -/
def FAILURE_MESSAGE (count : ℕ) : String :=
  "Optimization unsuccessful for " ++ toString count ++ " samples/batches."

/-- The per-batch failure counter: `count_failure += int(result.status <= 0)`
accumulated over the final solver result of every batch. -/
def countFailure (statuses : List ℤ) : ℕ :=
  (statuses.filter (fun s => s ≤ 0)).length

/-- Observable outcome of the final error-policy block of `lsq_nonlinear`:
return the solution silently, return it after one recoverable warning,
or raise. -/
inductive LsqOutcome (α : Type) where
  | ok (X : α)
  | warned (msg : String) (X : α)
  | raised (msg : String)
  deriving DecidableEq, Repr

/-- Embedding of lines 160-168 of `lsq_nonlinear`:
`if count_failure: if error == "ignore": pass elif error == "warn":
warnings.warn(FAILURE_MESSAGE...) else: raise RuntimeError(FAILURE_MESSAGE...)`,
then `return X`. -/
def applyErrorPolicy {α : Type} (error : String) (statuses : List ℤ) (X : α) :
    LsqOutcome α :=
  let count := countFailure statuses
  if count ≠ 0 then
    if error = "ignore" then .ok X
    else if error = "warn" then .warned (FAILURE_MESSAGE count) X
    else .raised (FAILURE_MESSAGE count)
  else .ok X

/-! ## `lsq_nonlinear` — automatic-differentiation mode selection

Embedding of lines 73-88: when `autodiff` and a nonlinearity is given and
no explicit `nonlin_prime` is supplied, the derivative is built with
`vmap(grad(...))` if `not jac_prime`, with `jacrev` if
`A.shape[1] * 2 > B.shape[1]`, and with `jacfwd` otherwise.
`A.shape[1]` is the number of inputs and `B.shape[1]` the number of
channels.
-/

/-- The three ways `lsq_nonlinear` builds the derivative of the
nonlinearity automatically. -/
inductive DiffMode where
  | elementwiseGrad
  | reverseJac
  | forwardJac
  deriving DecidableEq, Repr

/-- Embedding of the derivative-construction branch (lines 73-88).  Returns
`none` when the branch is not entered (no autodiff, no nonlinearity, or an
explicit `nonlin_prime` was supplied). -/
def buildNonlinPrime (autodiff nonlinGiven nonlinPrimeGiven jacPrime : Bool)
    (nInputs nChannels : ℕ) : Option DiffMode :=
  if autodiff ∧ nonlinGiven then
    if ¬nonlinPrimeGiven then
      if ¬jacPrime then some .elementwiseGrad
      else if nInputs * 2 > nChannels then some .reverseJac
      else some .forwardJac
    else none
  else none

/-! ## `dreye.core.measurement_utils.create_measured_spectrum` — bound orientation

Embedding of lines 112-123 of `src/dreye/core/measurement_utils.py`.
`spectrum_array` is wavelength × output (each inner list is one wavelength
row across output levels); `intensities = spectrum.magnitude.sum(0)` sums
over the wavelength axis; `spectrum.labels` is the output `Domain`, whose
`start`/`end` are the first/last output value.
-/

/-- `spectrum.magnitude.sum(0)`: per-output total intensity, summing the
wavelength axis of `spectrum_array`. -/
def totalIntensities (spectrumArray : List (List ℚ)) (j : ℕ) : ℚ :=
  (spectrumArray.map (fun row => row.getD j 0)).sum

/-- Embedding of the `assume_contains_output_bounds` block of
`create_measured_spectrum`: returns the
`(zero_intensity_bound, max_intensity_bound)` pair that is passed on to
`convert_measurement`. -/
def orientOutputBounds (spectrumArray : List (List ℚ)) (output : List ℚ)
    (zeroIntensityBound maxIntensityBound : Option ℚ)
    (assumeContainsOutputBounds : Bool) : Option ℚ × Option ℚ :=
  if assumeContainsOutputBounds then
    let first := totalIntensities spectrumArray 0
    let last := totalIntensities spectrumArray (output.length - 1)
    let start := output.headD 0
    let «end» := output.getLastD 0
    if first > last then
      (if zeroIntensityBound.isSome then some «end» else zeroIntensityBound,
       if maxIntensityBound.isSome then some start else maxIntensityBound)
    else
      (if zeroIntensityBound.isSome then some start else zeroIntensityBound,
       if maxIntensityBound.isSome then some «end» else maxIntensityBound)
  else (zeroIntensityBound, maxIntensityBound)

/-! ## `dreye.estimators.metrics.MeasuredSpectraMetrics._get_source_idcs`

Embedding of lines 480-488 of `src/dreye/estimators/metrics.py`:
`idcs = np.array(list(combinations(np.arange(n), k)))` enumerates all
`k`-element combinations of `0..n-1`, and the scatter
`source_idcs[repeat(arange(len(idcs)), k), idcs.ravel()] = True` turns
each combination into the boolean indicator row of its members over `n`
columns.  The combination list is modelled by `List.sublistsLen` (all
length-`k` subsequences of `range n`, i.e. exactly the `k`-element
combinations, duplicate-free; only the enumeration order differs from
`itertools`, which no claim depends on).
-/

/-- Boolean subset-index matrix: one row per `k`-combination of
`0..n-1`, `True` marking membership. -/
def _get_source_idcs (n k : ℕ) : List (List Bool) :=
  ((List.range n).sublistsLen k).map
    (fun c => (List.range n).map (fun i => decide (i ∈ c)))

/-! ## `dreye.estimators.metrics.compute_mean_width`

Embedding of lines 52-82 of `src/dreye/estimators/metrics.py`.  `X` is an
(m+1) × d sample matrix (numpy's `max` over the sample axis needs at
least one sample), `rprojs` a d × n matrix of projection directions.  The
random generation and l2-normalization of `rprojs` precede the branch and
are common to both implementations, so the two branches are compared at
identical `rprojs`.
-/

/-- `X = X - X.mean(0)`: center each feature column. -/
def centerSamples {m d : ℕ} (X : Fin (m + 1) → Fin d → ℚ) :
    Fin (m + 1) → Fin d → ℚ :=
  fun i k => X i k - (∑ i', X i' k) / (m + 1)

/-- `numpy` max over the (nonempty) sample axis. -/
def sampleMax {m : ℕ} (v : Fin (m + 1) → ℚ) : ℚ :=
  Finset.univ.sup' Finset.univ_nonempty v

/-- The `vectorized=True` branch: `proj = X @ rprojs`,
`max1 = proj.max(0)`, `max2 = (-proj).max(0)`, `(max1 + max2).mean()`. -/
def meanWidthVectorized {m d n : ℕ} (X : Fin (m + 1) → Fin d → ℚ)
    (rprojs : Fin d → Fin n → ℚ) : ℚ :=
  let Xc := centerSamples X
  let proj : Fin (m + 1) → Fin n → ℚ := fun i j => ∑ k, Xc i k * rprojs k j
  let max1 : Fin n → ℚ := fun j => sampleMax (fun i => proj i j)
  let max2 : Fin n → ℚ := fun j => sampleMax (fun i => -proj i j)
  (∑ j, (max1 j + max2 j)) / n

/-- The `vectorized=False` branch: a loop over the columns of `rprojs`
(`for idx, rproj in enumerate(rprojs.T)`) filling `max1[idx]`/`max2[idx]`
one projection at a time, then `(max1 + max2).mean()`. -/
def meanWidthLoop {m d n : ℕ} (X : Fin (m + 1) → Fin d → ℚ)
    (rprojs : Fin d → Fin n → ℚ) : ℚ :=
  let Xc := centerSamples X
  let widths := (List.finRange n).map (fun j =>
    let rproj : Fin d → ℚ := fun k => rprojs k j
    let proj : Fin (m + 1) → ℚ := fun i => ∑ k, Xc i k * rproj k
    sampleMax proj + sampleMax (fun i => -proj i))
  widths.sum / n

/-- `compute_mean_width(X, ..., vectorized)` at fixed projection matrix. -/
def compute_mean_width {m d n : ℕ} (X : Fin (m + 1) → Fin d → ℚ)
    (rprojs : Fin d → Fin n → ℚ) (vectorized : Bool) : ℚ :=
  if vectorized then meanWidthVectorized X rprojs else meanWidthLoop X rprojs

/-! ## `dreye.stimuli.temporal.step.RandomSwitchStimulus`

Embedding of `_create_events` / `_create_signal` / `create`
(`src/dreye/stimuli/temporal/step.py`, lines 303-424).  The
truncated-normal interval draws and the weighted value choices are
modelled by an oracle: per channel, the first interval draw and a stream
of subsequent (interval, value) draw pairs.  Event tables are lists of
rows; reading a column of an empty `pd.DataFrame()` (which has no
columns) raises `KeyError`, modelled as `Except.error`.
-/

/-- One row of the random-switch event table
(`delay`, `dur`, `channel`, `value`, `iter`). -/
structure SwitchEvent where
  delay : ℚ
  dur : ℚ
  channel : String
  value : ℚ
  iter : ℕ
  deriving DecidableEq, Repr

/-- The per-channel accumulation loop of `_create_events`:
`cum_dur = distribution.rvs(); while cum_dur < total_dur: dur = rvs();
value = choice(...); append row(delay=cum_dur, dur, channel, value);
cum_dur += dur`.  `draws` is the oracle stream of (dur, value) pairs. -/
def genChannelEvents (totalDur : ℚ) (key : String) :
    List (ℚ × ℚ) → ℚ → List SwitchEvent
  | [], _ => []
  | (dur, value) :: rest, cumDur =>
    if cumDur < totalDur then
      ⟨cumDur, dur, key, value, 0⟩ ::
        genChannelEvents totalDur key rest (cumDur + dur)
    else []

/-- The iteration-duplication loop of `_create_events`: for each
`n in range(iterations - 1)`, copy the current table with `iter = n + 1`
and all delays shifted past the previous last event's end plus
`end_dur`, and append the copy. -/
def appendIterations (endDur : ℚ) (iterations : ℕ)
    (events : List SwitchEvent) : List SwitchEvent :=
  (List.range (iterations - 1)).foldl (fun evs n =>
    match evs.getLast? with
    | none => evs
    | some last =>
      let previousTotalDur := endDur + last.delay + last.dur
      evs ++ evs.map (fun e =>
        { e with iter := n + 1, delay := e.delay + previousTotalDur }))
    events

/-- `RandomSwitchStimulus._create_events` over the draw oracle
(`channels` lists, per channel, its name, first interval draw and
subsequent draw pairs): accumulate rows per channel, then
`events[DELAY_KEY] += start_delay` (a `KeyError` on the column-less empty
frame), sort by event end, and duplicate per iteration. -/
def randomSwitchCreateEvents (totalDur startDelay endDur : ℚ)
    (iterations : ℕ) (channels : List (String × ℚ × List (ℚ × ℚ))) :
    Except String (List SwitchEvent) :=
  let events := channels.flatMap
    (fun ch => genChannelEvents totalDur ch.1 ch.2.2 ch.2.1)
  if events.isEmpty then .error "KeyError: delay"
  else
    let events := events.map (fun e => { e with delay := e.delay + startDelay })
    let events := events.mergeSort
      (fun e1 e2 => decide (e1.delay + e1.dur ≤ e2.delay + e2.dur))
    .ok (appendIterations endDur iterations events)

/-- `RandomSwitchStimulus._create_signal` (with `func=None`): frames at
rate `rate` over the total duration derived from the last event
(`events.iloc[-1]`, an `IndexError` on an empty table), baseline rows,
and per event an overwrite of its own channel's column on the half-open
frame-quantized interval (`times[tbool][0]` raises `IndexError` when the
interval covers no frame). -/
def randomSwitchCreateSignal (rate endDur : ℚ) (channelNames : List String)
    (baseline : List ℚ) (events : List SwitchEvent) :
    Except String (List (List ℚ)) :=
  match events.getLast? with
  | none => .error "IndexError: empty events"
  | some last =>
    let totalDur := last.delay + last.dur + endDur
    let totalFrames := (⌈totalDur * rate⌉).toNat
    let times := (List.range totalFrames).map (fun i => (i : ℚ) / rate)
    let init : List (List ℚ) := times.map (fun _ => baseline)
    events.foldlM (fun signal e =>
      let tbool := times.map
        (fun t => decide (e.delay ≤ t) && decide (t < e.delay + e.dur))
      if tbool.any id then
        .ok ((signal.zip tbool).map (fun rb =>
          if rb.2 then rb.1.set (channelNames.indexOf e.channel) e.value
          else rb.1))
      else .error "IndexError: times[tbool][0]") init

/-- `AbstractStepStimulus.create` for `RandomSwitchStimulus`:
`_create_events` then `_create_signal` on its result. -/
def randomSwitchCreate (totalDur startDelay endDur rate : ℚ)
    (iterations : ℕ) (channelNames : List String) (baseline : List ℚ)
    (channels : List (String × ℚ × List (ℚ × ℚ))) :
    Except String (List SwitchEvent × List (List ℚ)) := do
  let events ← randomSwitchCreateEvents totalDur startDelay endDur
    iterations channels
  let signal ← randomSwitchCreateSignal rate endDur channelNames baseline
    events
  pure (events, signal)

/-! ## `dreye.stimuli.mixin.SetRandomStepMixin._set_values` (dict branch)

Embedding of lines 82-131 of `src/dreye/stimuli/mixin.py`.  Python's
reference semantics are made explicit: dictionaries live on a heap of
numbered cells, callers pass references, and `values[key] = ...` /
`values_probs[key] = ...` update the referenced cell.  A dictionary is an
insertion-ordered association list with unique keys; assigning an
existing key keeps its position, assigning a new key appends.
-/

/-- A Python value stored in one of the dictionaries: a plain list-like
sequence or a numpy array (`np.array(...)` of it). -/
inductive PyVal where
  | pylist (xs : List ℚ)
  | nparray (xs : List ℚ)
  deriving DecidableEq, Repr

/-- Underlying numbers of a `PyVal`. -/
def PyVal.toList : PyVal → List ℚ
  | .pylist xs => xs
  | .nparray xs => xs

/-- `d[key] = v`: replace in place, or append when the key is new. -/
def dictSet : List (String × PyVal) → String → PyVal → List (String × PyVal)
  | [], key, v => [(key, v)]
  | kv :: rest, key, v =>
    if kv.1 = key then (key, v) :: rest else kv :: dictSet rest key v

/-- `d.get(key, None)`. -/
def dictGet : List (String × PyVal) → String → Option PyVal
  | [], _ => none
  | kv :: rest, key => if kv.1 = key then some kv.2 else dictGet rest key

/-- Heap of Python dictionaries: cell contents plus an allocation
counter. -/
structure PyHeap where
  dicts : ℕ → List (String × PyVal)
  next : ℕ

/-- Contents of the dictionary a reference points to. -/
def PyHeap.get (h : PyHeap) (r : ℕ) : List (String × PyVal) := h.dicts r

/-- `heap[r][key] = v`. -/
def PyHeap.setEntry (h : PyHeap) (r : ℕ) (key : String) (v : PyVal) :
    PyHeap :=
  { h with dicts := Function.update h.dicts r (dictSet (h.dicts r) key v) }

/-- Allocate a fresh dictionary (`values_probs = {}`). -/
def PyHeap.alloc (h : PyHeap) (d : List (String × PyVal)) : PyHeap × ℕ :=
  ({ dicts := Function.update h.dicts h.next d, next := h.next + 1 }, h.next)

/-- `np.ones(len(ele)) / len(ele)`. -/
def uniformProbs (n : ℕ) : List ℚ := List.replicate n (1 / (n : ℚ))

/-- The new content of `values_probs[key]` after one loop pass: uniform
over `len(ele)` when the key was absent, else the entry re-normalized to
sum 1. -/
def probUpdate (vpOpt : Option PyVal) (ele : List ℚ) : List ℚ :=
  match vpOpt with
  | none => uniformProbs ele.length
  | some vp => vp.toList.map (fun x => x / vp.toList.sum)

/-- One pass of the `for key, ele in values.items()` loop body:
`values[key] = np.array(ele)`; then either fill `values_probs[key]` with
the uniform distribution (when absent) or overwrite it with its
re-normalized array, asserting the length match. -/
def setValuesStep (vRef pRef : ℕ) (hh : PyHeap) (kv : String × PyVal) :
    Except String PyHeap :=
  let ele := kv.2.toList
  let hh := hh.setEntry vRef kv.1 (.nparray ele)
  match dictGet (hh.get pRef) kv.1 with
  | none => .ok (hh.setEntry pRef kv.1 (.nparray (uniformProbs ele.length)))
  | some vp =>
    let arr := vp.toList
    let normalized := arr.map (fun x => x / arr.sum)
    if normalized.length = ele.length then
      .ok (hh.setEntry pRef kv.1 (.nparray normalized))
    else .error "values prob not same length as values."

/-- `SetRandomStepMixin._set_values` for dictionary `values`: resolve
`values_probs` (fresh empty dict when `None`), run the loop over the
entries of the `values` dict, broadcast a numeric `baseline_values`, and
return (references to) `values`, `baseline_values` and `values_probs`. -/
def setRandomStepValues (h : PyHeap) (vRef : ℕ) (pRefOpt : Option ℕ)
    (baselineValue : ℚ) : Except String (PyHeap × ℕ × List ℚ × ℕ) := do
  let (h, pRef) := match pRefOpt with
    | none => h.alloc []
    | some r => (h, r)
  let entries := h.get vRef
  let h ← entries.foldlM (setValuesStep vRef pRef) h
  pure (h, vRef, List.replicate entries.length baselineValue, pRef)

/-- A tiny concrete heap used to exercise `setRandomStepValues`: cell 0
holds `values = {"a": [1, 2]}` and cell 1 holds
`values_probs = {"a": [3, 1]}`. -/
def exampleHeap : PyHeap :=
  ⟨fun r => if r = 0 then [("a", .pylist [1, 2])]
    else if r = 1 then [("a", .pylist [3, 1])] else [], 2⟩

/-! ## `dreye.estimators.metrics.MeasuredSpectraMetrics.compute_mean_correlation`

Embedding of lines 384-388 of `src/dreye/estimators/metrics.py`:
`cc = np.corrcoef(points, rowvar=False)` is the feature (column-wise)
Pearson correlation matrix — the centered column Gram matrix normalized
by the square roots of its diagonal (the covariance normalization factor
cancels) — and the function returns `(cc - np.eye(cc.shape[0])).mean()`,
the mean over all `d × d` entries of the correlation matrix with its
diagonal zeroed.  Floats are modelled by `ℝ` because of the square root.
-/

/-- Column mean of an `m × d` points matrix. -/
noncomputable def colMean {m d : ℕ} (points : Fin m → Fin d → ℝ)
    (j : Fin d) : ℝ :=
  (∑ i, points i j) / m

/-- Centered column Gram matrix
`∑ i (x_ij - mean_j) (x_ik - mean_k)` (the covariance matrix up to the
`1/(N-1)` factor, which cancels in the correlation). -/
noncomputable def centeredGram {m d : ℕ} (points : Fin m → Fin d → ℝ)
    (j k : Fin d) : ℝ :=
  ∑ i, (points i j - colMean points j) * (points i k - colMean points k)

/-- `np.corrcoef(points, rowvar=False)`: Pearson correlation of feature
columns `j` and `k`. -/
noncomputable def corrcoef {m d : ℕ} (points : Fin m → Fin d → ℝ)
    (j k : Fin d) : ℝ :=
  centeredGram points j k
    / Real.sqrt (centeredGram points j j * centeredGram points k k)

/-- `compute_mean_correlation`: `(cc - np.eye(cc.shape[0])).mean()`. -/
noncomputable def compute_mean_correlation {m d : ℕ}
    (points : Fin m → Fin d → ℝ) : ℝ :=
  (∑ j, ∑ k, (corrcoef points j k - if j = k then 1 else 0))
    / ((d : ℝ) * d)

/-- The spec's words for comparison: the mean of the off-diagonal entries
of the feature correlation matrix (sum of the `d² - d` off-diagonal
entries divided by their number). -/
noncomputable def specMeanOffDiagonal {m d : ℕ}
    (points : Fin m → Fin d → ℝ) : ℝ :=
  (∑ j, ∑ k, if j = k then 0 else corrcoef points j k)
    / ((d : ℝ) * d - d)

/-- Two samples, two perfectly correlated features:
`points = [[0, 0], [1, 1]]`. -/
noncomputable def examplePoints : Fin 2 → Fin 2 → ℝ := fun i _ => (i.val : ℝ)

/-! ## `dreye.estimators.intensity_models.RelativeIntensityFit`

Embedding of `_to_absolute_intensity` / `_to_relative_intensity`
(`src/dreye/estimators/intensity_models.py`, lines 150-175).  `X` and the
fitted `bg_ints_` are vectors (broadcasting of `bg_ints_[None]` over the
sample axis makes every sample independent, so one sample row is
modelled); a failing `assert` is modelled as `none`.  `np.exp`/`np.log`
require `ℝ`.
-/

open scoped Classical in
/-- `_to_absolute_intensity(X)`: exponentiate first for a log-like
`rtype`, otherwise (for non-weber) assert `X >= 0`; scale by `bg_ints_`;
add `bg_ints_` for weber. -/
noncomputable def toAbsoluteIntensity {n : ℕ} (rtype : String)
    (bg X : Fin n → ℝ) : Option (Fin n → ℝ) :=
  if rtype = "fechner" ∨ rtype = "log" then
    some (fun i => Real.exp (X i) * bg i)
  else if rtype ≠ "weber" then
    if ∀ i, 0 ≤ X i then some (fun i => X i * bg i) else none
  else
    some (fun i => X i * bg i + bg i)

open scoped Classical in
/-- `_to_relative_intensity(X)`: subtract `bg_ints_` for weber, divide by
`bg_ints_`, assert the quotient is `>= 0`, then take the log for a
log-like `rtype`. -/
noncomputable def toRelativeIntensity {n : ℕ} (rtype : String)
    (bg X : Fin n → ℝ) : Option (Fin n → ℝ) :=
  let X1 := fun i => if rtype = "weber" then X i - bg i else X i
  let X2 := fun i => X1 i / bg i
  if ∀ i, 0 ≤ X2 i then
    some (if rtype = "fechner" ∨ rtype = "log"
      then fun i => Real.log (X2 i) else X2)
  else none

/-! ## `dreye.utilities.common.round_to_significant`

Embedding of lines 30-60 of `src/dreye/utilities/common.py`.  A float is
either a finite value (modelled exactly by `ℚ`) or non-finite
(`nan`/`inf`); the input is a scalar or an array.  `np.round` rounds half
to even; `int(...)` on the value of `digits_to_decimals` is exact because
that value is integral.  `Int.log 10 |x|` is exactly
`floor(log10(|x|))` for nonzero `x`.
-/

/-- A floating-point value: finite (exact rational) or non-finite. -/
inductive FloatVal where
  | finite (q : ℚ)
  | nonfinite
  deriving DecidableEq, Repr

/-- `np.isfinite`. -/
def FloatVal.isFinite : FloatVal → Bool
  | .finite _ => true
  | .nonfinite => false

/-- Scalar-or-array input of `round_to_significant`. -/
inductive RoundInput where
  | scalar (x : FloatVal)
  | array (xs : List FloatVal)
  deriving DecidableEq, Repr

/-- Scalar-or-array output of `round_to_significant`. -/
inductive RoundOutput where
  | scalar (q : ℚ)
  | array (qs : List ℚ)
  deriving DecidableEq, Repr

/-- `digits_to_decimals(x, digits) = -floor(log10(|x|)) + digits - 1`. -/
def digitsToDecimals (x : ℚ) (digits : ℤ) : ℤ :=
  -(Int.log 10 |x|) + digits - 1

/-- Round to the nearest integer, ties to even (`np.round`'s rule). -/
def roundHalfEven (q : ℚ) : ℤ :=
  if q - ⌊q⌋ < 1 / 2 then ⌊q⌋
  else if 1 / 2 < q - ⌊q⌋ then ⌊q⌋ + 1
  else if Even ⌊q⌋ then ⌊q⌋ else ⌊q⌋ + 1

/-- `np.round(x, decimals)`: scale by `10^decimals`, round half to even,
scale back (`decimals` may be negative). -/
def npRound (x : ℚ) (d : ℤ) : ℚ :=
  (roundHalfEven (x * 10 ^ d) : ℚ) / 10 ^ d

/-- The per-entry body of `round_to_significant`: zero stays zero, a
nonzero value is rounded to `digits_to_decimals(x, digits)` decimal
places. -/
def roundSigScalar (q : ℚ) (digits : ℤ) : ℚ :=
  if q = 0 then q else npRound q (digitsToDecimals q digits)

/-- `round_to_significant(x, digits)`: raise
`ValueError('Only float and int types for rounding')` when any entry is
non-finite, else round each (scalar or array) entry. -/
def round_to_significant (x : RoundInput) (digits : ℤ) :
    Except String RoundOutput :=
  match x with
  | .scalar .nonfinite => .error "Only float and int types for rounding"
  | .scalar (.finite q) => .ok (.scalar (roundSigScalar q digits))
  | .array xs =>
    if xs.all FloatVal.isFinite then
      .ok (.array (xs.map fun v => match v with
        | .finite q => roundSigScalar q digits
        | .nonfinite => 0))
    else .error "Only float and int types for rounding"

end Dreye

namespace Dreye

/-! ### Theorems for the error policy (claim C1) -/

theorem countFailure_pos_iff (statuses : List ℤ) :
    0 < countFailure statuses ↔ ∃ s ∈ statuses, s ≤ 0 := by
  simp [countFailure, List.length_pos, List.filter_eq_nil_iff]

/-- C1: if at least one batch's final solver status is `≤ 0`, then
`error="ignore"` returns the solution silently, `error="warn"` returns it
with exactly one recoverable warning carrying the failure count, and any
other `error` value raises with the failure count in the message; if no
batch fails, the result is returned silently whatever `error` is. -/
theorem lsq_nonlinear_error_policy {α : Type} (error : String)
    (statuses : List ℤ) (X : α) (hfail : ∃ s ∈ statuses, s ≤ 0) :
    (applyErrorPolicy "ignore" statuses X = .ok X) ∧
    (applyErrorPolicy "warn" statuses X
      = .warned (FAILURE_MESSAGE (countFailure statuses)) X) ∧
    (error ≠ "ignore" → error ≠ "warn" →
      applyErrorPolicy error statuses X
        = .raised (FAILURE_MESSAGE (countFailure statuses))) ∧
    (∀ (statuses' : List ℤ), (∀ s ∈ statuses', 0 < s) →
      applyErrorPolicy error statuses' X = .ok X) := by
  have hpos : countFailure statuses ≠ 0 := by
    have := (countFailure_pos_iff statuses).mpr hfail
    omega
  refine ⟨?_, ?_, ?_, ?_⟩
  · simp [applyErrorPolicy, hpos]
  · simp [applyErrorPolicy, hpos]
  · intro h1 h2
    simp [applyErrorPolicy, hpos, h1, h2]
  · intro statuses' hok
    have hzero : countFailure statuses' = 0 := by
      by_contra hne
      have hpos' : 0 < countFailure statuses' := Nat.pos_of_ne_zero hne
      obtain ⟨s, hs, hle⟩ := (countFailure_pos_iff statuses').mp hpos'
      exact absurd (hok s hs) (by omega)
    simp [applyErrorPolicy, hzero]

theorem lsq_nonlinear_error_policy_witness :
    (∃ s ∈ ([1, 0, -2] : List ℤ), s ≤ 0) ∧
    (applyErrorPolicy "warn" ([1, 0, -2] : List ℤ) (42 : ℕ)
      = .warned (FAILURE_MESSAGE 2) 42) := by
  refine ⟨⟨0, by simp, by norm_num⟩, ?_⟩
  have h := lsq_nonlinear_error_policy (α := ℕ) "raise" [1, 0, -2] 42
    ⟨0, by simp, by norm_num⟩
  exact h.2.1

/-! ### Theorems for the bound orientation (claim C2) -/

/-- C2 counterexample: with `assume_contains_output_bounds=True`, rising
total intensity and no caller-supplied bounds (the common case), the
bounds stay `None` instead of being oriented to the start/end of the
output domain. -/
theorem create_measured_spectrum_bounds_counterexample :
    orientOutputBounds [[1, 2]] [0, 1] none none true = (none, none) ∧
    orientOutputBounds [[1, 2]] [0, 1] none none true
      ≠ (some ((0 : ℚ)), some ((1 : ℚ))) := by
  constructor
  · norm_num [orientOutputBounds, totalIntensities]
  · norm_num [orientOutputBounds, totalIntensities]
    intro h
    exact absurd h (by simp)

/-- C2 amended: the orientation is applied only to bounds the caller
actually supplied (`is not None`); for those, `zero_intensity_bound` is
oriented to the start of the output domain and `max_intensity_bound` to
its end when the wavelength-summed intensity at the first output level is
not greater than at the last, and to the opposite ends otherwise.  A
`None` bound is left as `None`. -/
theorem create_measured_spectrum_bound_orientation
    (spectrumArray : List (List ℚ)) (output : List ℚ) (z m : ℚ)
    (hrise : ¬ totalIntensities spectrumArray 0
        > totalIntensities spectrumArray (output.length - 1)) :
    orientOutputBounds spectrumArray output (some z) (some m) true
      = (some (output.headD 0), some (output.getLastD 0)) ∧
    (∀ (sa' : List (List ℚ)) (out' : List ℚ) (z' m' : ℚ),
      totalIntensities sa' 0 > totalIntensities sa' (out'.length - 1) →
      orientOutputBounds sa' out' (some z') (some m') true
        = (some (out'.getLastD 0), some (out'.headD 0))) ∧
    (∀ (sa' : List (List ℚ)) (out' : List ℚ),
      orientOutputBounds sa' out' none none true = (none, none)) := by
  refine ⟨?_, ?_, ?_⟩
  · simp [orientOutputBounds, hrise]
  · intro sa' out' z' m' hfall
    simp [orientOutputBounds, hfall]
  · intro sa' out'
    by_cases h : totalIntensities sa' 0 > totalIntensities sa' (out'.length - 1) <;>
      simp [orientOutputBounds, h]

theorem create_measured_spectrum_bound_orientation_witness :
    (¬ totalIntensities [[1, 2]] 0 > totalIntensities [[1, 2]] ([0, 1].length - 1)) ∧
    orientOutputBounds [[1, 2]] [(0 : ℚ), 1] (some 5) (some 7) true
      = (some 0, some 1) := by
  have h : ¬ totalIntensities [[(1 : ℚ), 2]] 0
      > totalIntensities [[(1 : ℚ), 2]] ([(0 : ℚ), 1].length - 1) := by
    norm_num [totalIntensities]
  exact ⟨h,
    (create_measured_spectrum_bound_orientation [[1, 2]] [0, 1] 5 7 h).1⟩

/-! ### Theorems for the autodiff mode selection (claim C6) -/

/-- C6: with `autodiff`, a nonlinearity, no explicit `nonlin_prime` and
`jac_prime = true`, forward-mode is chosen exactly when
`2 * n_inputs ≤ n_channels` and reverse-mode otherwise; with
`jac_prime = false` a per-element (vmapped scalar gradient) derivative is
built instead. -/
theorem lsq_nonlinear_diffmode (nInputs nChannels : ℕ) :
    (buildNonlinPrime true true false true nInputs nChannels
        = some .forwardJac ↔ 2 * nInputs ≤ nChannels) ∧
    (buildNonlinPrime true true false true nInputs nChannels
        = some .reverseJac ↔ nChannels < 2 * nInputs) ∧
    (buildNonlinPrime true true false false nInputs nChannels
        = some .elementwiseGrad) := by
  refine ⟨?_, ?_, by simp [buildNonlinPrime]⟩
  · by_cases h : nInputs * 2 > nChannels
    · simp [buildNonlinPrime, h]
      omega
    · simp [buildNonlinPrime, h]
      omega
  · by_cases h : nInputs * 2 > nChannels
    · simp [buildNonlinPrime, h]
      omega
    · simp [buildNonlinPrime, h]
      omega

/-! ### Theorems for the subset-index generation (claim C8) -/

theorem filter_mem_eq_of_sublist :
    ∀ {c l : List ℕ}, List.Sublist c l → l.Nodup →
      l.filter (fun i => decide (i ∈ c)) = c := by
  intro c l hc
  induction hc with
  | slnil => intro _; rfl
  | cons a h ih =>
    intro hl
    have hnd := List.nodup_cons.mp hl
    rw [List.filter_cons, if_neg]
    · exact ih hnd.2
    · simp only [decide_eq_true_eq]
      exact fun hac => hnd.1 (h.subset hac)
  | cons₂ a h ih =>
    rename_i l₁ l₂
    intro hl
    have hnd := List.nodup_cons.mp hl
    rw [List.filter_cons, if_pos (by simp)]
    congr 1
    have heq : ∀ x ∈ l₂, (fun i => decide (i ∈ a :: l₁)) x
        = (fun i => decide (i ∈ l₁)) x := fun x hx => by
      have hxa : x ≠ a := fun he => hnd.1 (he ▸ hx)
      simp [hxa]
    rw [List.filter_congr heq]
    exact ih hnd.2

theorem count_true_indicator (n : ℕ) {c : List ℕ} (hc : List.Sublist c (List.range n)) :
    ((List.range n).map (fun i => decide (i ∈ c))).count true = c.length := by
  rw [List.count_eq_countP, List.countP_map]
  have : ((fun b => b == true) ∘ fun i => decide (i ∈ c))
      = fun i => decide (i ∈ c) := by
    funext i
    simp
  rw [this, List.countP_eq_length_filter,
    filter_mem_eq_of_sublist hc (List.nodup_range n)]

/-- C8: for `0 ≤ k ≤ n`, `_get_source_idcs n k` is a boolean matrix with
exactly `C(n, k)` rows and `n` columns, every row having exactly `k`
`True` entries, and no two rows equal. -/
theorem get_source_idcs_spec (n k : ℕ) (hk : k ≤ n) :
    (_get_source_idcs n k).length = n.choose k ∧
    (∀ row ∈ _get_source_idcs n k, row.length = n ∧ row.count true = k) ∧
    (_get_source_idcs n k).Nodup := by
  refine ⟨?_, ?_, ?_⟩
  · simp [_get_source_idcs]
  · intro row hrow
    simp only [_get_source_idcs, List.mem_map] at hrow
    obtain ⟨c, hc, rfl⟩ := hrow
    rw [List.mem_sublistsLen] at hc
    exact ⟨by simp, by rw [count_true_indicator n hc.1, hc.2]⟩
  · apply List.Nodup.map_on ?_ (List.nodup_sublistsLen k (List.nodup_range n))
    intro c hc c' hc' heq
    rw [List.mem_sublistsLen] at hc hc'
    have h1 := filter_mem_eq_of_sublist hc.1 (List.nodup_range n)
    have h2 := filter_mem_eq_of_sublist hc'.1 (List.nodup_range n)
    rw [← h1, ← h2]
    exact List.filter_congr (List.map_inj_left.mp heq)

/-! ### Theorems for the mean-width equivalence (claim C7) -/

/-- C7: for every sample matrix and every fixed set of projection
directions, the vectorized branch and the loop-based branch of
`compute_mean_width` return the same mean width. -/
theorem compute_mean_width_vectorized_eq_loop {m d n : ℕ}
    (X : Fin (m + 1) → Fin d → ℚ) (rprojs : Fin d → Fin n → ℚ) :
    compute_mean_width X rprojs true = compute_mean_width X rprojs false := by
  simp only [compute_mean_width, if_true, if_false, Bool.false_eq_true,
    meanWidthVectorized, meanWidthLoop]
  congr 1

/-! ### Theorems for `round_to_significant` (claim C5) -/

theorem roundHalfEven_le (q : ℚ) : (roundHalfEven q : ℚ) ≤ q + 1 / 2 := by
  have h1 : (⌊q⌋ : ℚ) ≤ q := Int.floor_le q
  have h2 : q < ⌊q⌋ + 1 := Int.lt_floor_add_one q
  unfold roundHalfEven
  split_ifs <;> push_cast <;> linarith

theorem le_roundHalfEven (q : ℚ) : q - 1 / 2 ≤ (roundHalfEven q : ℚ) := by
  have h1 : (⌊q⌋ : ℚ) ≤ q := Int.floor_le q
  have h2 : q < ⌊q⌋ + 1 := Int.lt_floor_add_one q
  unfold roundHalfEven
  split_ifs <;> push_cast <;> linarith

theorem roundHalfEven_intCast (n : ℤ) : roundHalfEven (n : ℚ) = n := by
  unfold roundHalfEven
  rw [Int.floor_intCast, if_pos (by norm_num)]

theorem int_le_roundHalfEven {N : ℤ} {q : ℚ} (h : (N : ℚ) ≤ q) :
    N ≤ roundHalfEven q := by
  have h2 : (N : ℚ) - 1 < (roundHalfEven q : ℚ) := by
    linarith [le_roundHalfEven q]
  have h3 : N - 1 < roundHalfEven q := by exact_mod_cast h2
  omega

theorem roundHalfEven_le_int {N : ℤ} {q : ℚ} (h : q ≤ (N : ℚ)) :
    roundHalfEven q ≤ N := by
  have h2 : (roundHalfEven q : ℚ) < (N : ℚ) + 1 := by
    linarith [roundHalfEven_le q]
  have h3 : roundHalfEven q < N + 1 := by exact_mod_cast h2
  omega

theorem npRound_int_div (m : ℤ) (d : ℤ) :
    npRound ((m : ℚ) / 10 ^ d) d = (m : ℚ) / 10 ^ d := by
  unfold npRound
  rw [div_mul_cancel₀ _ (zpow_ne_zero d (by norm_num : (10 : ℚ) ≠ 0)),
    roundHalfEven_intCast]

theorem roundSigScalar_idempotent (q : ℚ) (digits : ℤ) (hq : q ≠ 0)
    (hd : 1 ≤ digits) :
    roundSigScalar (roundSigScalar q digits) digits
      = roundSigScalar q digits := by
  have htenne : (10 : ℚ) ≠ 0 := by norm_num
  have hpow_pos : ∀ z : ℤ, (0 : ℚ) < 10 ^ z := fun z => zpow_pos (by norm_num) z
  set e := Int.log 10 |q| with he
  set dd := digitsToDecimals q digits with hdd
  have hdd_eq : dd = -e + digits - 1 := by rw [hdd, digitsToDecimals, he]
  set m := roundHalfEven (q * 10 ^ dd) with hm
  have hq' : roundSigScalar q digits = (m : ℚ) / 10 ^ dd := by
    rw [roundSigScalar, if_neg hq, npRound, hm]
  -- bounds on the scaled value
  have habsq_lb : (10 : ℚ) ^ e ≤ |q| :=
    Int.zpow_log_le_self (by norm_num) (abs_pos.mpr hq)
  have habsq_ub : |q| < (10 : ℚ) ^ (e + 1) :=
    Int.lt_zpow_succ_log_self (by norm_num) |q|
  have habsv : |q * 10 ^ dd| = |q| * 10 ^ dd := by
    rw [abs_mul, abs_of_pos (hpow_pos dd)]
  have hv_lb : (10 : ℚ) ^ (digits - 1) ≤ |q * 10 ^ dd| := by
    rw [habsv]
    calc (10 : ℚ) ^ (digits - 1) = 10 ^ e * 10 ^ dd := by
          rw [← zpow_add₀ htenne]
          congr 1
          omega
      _ ≤ |q| * 10 ^ dd :=
          mul_le_mul_of_nonneg_right habsq_lb (hpow_pos dd).le
  have hv_ub : |q * 10 ^ dd| < (10 : ℚ) ^ digits := by
    rw [habsv]
    calc |q| * 10 ^ dd < 10 ^ (e + 1) * 10 ^ dd :=
          mul_lt_mul_of_pos_right habsq_ub (hpow_pos dd)
      _ = 10 ^ digits := by
          rw [← zpow_add₀ htenne]
          congr 1
          omega
  -- integer forms of the significant-figure bounds
  set N₁ : ℤ := 10 ^ (digits - 1).toNat with hN₁
  set N₂ : ℤ := 10 ^ digits.toNat with hN₂
  have hN₁cast : ((N₁ : ℤ) : ℚ) = (10 : ℚ) ^ (digits - 1) := by
    rw [hN₁]
    push_cast
    rw [← zpow_natCast (10 : ℚ), Int.toNat_of_nonneg (by omega : (0:ℤ) ≤ digits - 1)]
  have hN₂cast : ((N₂ : ℤ) : ℚ) = (10 : ℚ) ^ digits := by
    rw [hN₂]
    push_cast
    rw [← zpow_natCast (10 : ℚ), Int.toNat_of_nonneg (by omega : (0:ℤ) ≤ digits)]
  have hN₁pos : 0 < N₁ := pow_pos (by norm_num) _
  have hN₂pos : 0 < N₂ := pow_pos (by norm_num) _
  -- bounds on the rounded integer
  have hm_bounds : N₁ ≤ |m| ∧ |m| ≤ N₂ := by
    rcases lt_or_gt_of_ne hq with hneg | hpos
    · have hv_neg : q * 10 ^ dd < 0 := mul_neg_of_neg_of_pos hneg (hpow_pos dd)
      have habs_eq : |q * 10 ^ dd| = -(q * 10 ^ dd) := abs_of_neg hv_neg
      have hub : q * 10 ^ dd ≤ ((-N₁ : ℤ) : ℚ) := by
        push_cast
        rw [hN₁cast]
        rw [habs_eq] at hv_lb
        linarith
      have hlb : ((-N₂ : ℤ) : ℚ) ≤ q * 10 ^ dd := by
        push_cast
        rw [hN₂cast]
        rw [habs_eq] at hv_ub
        linarith
      have h1 : m ≤ -N₁ := roundHalfEven_le_int hub
      have h2 : -N₂ ≤ m := int_le_roundHalfEven hlb
      have hmneg : m < 0 := by omega
      rw [abs_of_neg hmneg]
      omega
    · have hv_pos : 0 < q * 10 ^ dd := mul_pos hpos (hpow_pos dd)
      have habs_eq : |q * 10 ^ dd| = q * 10 ^ dd := abs_of_pos hv_pos
      have hlb : ((N₁ : ℤ) : ℚ) ≤ q * 10 ^ dd := by
        rw [hN₁cast]
        rw [habs_eq] at hv_lb
        linarith
      have hub : q * 10 ^ dd ≤ ((N₂ : ℤ) : ℚ) := by
        rw [hN₂cast]
        rw [habs_eq] at hv_ub
        linarith
      have h1 : N₁ ≤ m := int_le_roundHalfEven hlb
      have h2 : m ≤ N₂ := roundHalfEven_le_int hub
      have hmpos : 0 < m := by omega
      rw [abs_of_pos hmpos]
      omega
  obtain ⟨hm_lb, hm_ub⟩ := hm_bounds
  have hmne : m ≠ 0 := by
    intro h
    rw [h] at hm_lb
    simp at hm_lb
    omega
  have hq'ne : (m : ℚ) / 10 ^ dd ≠ 0 :=
    div_ne_zero (Int.cast_ne_zero.mpr hmne) (hpow_pos dd).ne'
  have habsq' : |(m : ℚ) / 10 ^ dd| = |(m : ℚ)| / 10 ^ dd := by
    rw [abs_div, abs_of_pos (hpow_pos dd)]
  have habsm_cast : |(m : ℚ)| = ((|m| : ℤ) : ℚ) := by
    push_cast
    rfl
  rcases eq_or_lt_of_le hm_ub with hEq | hLt
  · -- the rounding bumped to the next decade: q' = ±10^(e+1)
    have habs_q' : |(m : ℚ) / 10 ^ dd| = (10 : ℚ) ^ (e + 1) := by
      rw [habsq', habsm_cast, hEq, hN₂cast, ← zpow_sub₀ htenne]
      congr 1
      omega
    have hlog' : Int.log 10 |(m : ℚ) / 10 ^ dd| = e + 1 := by
      rw [habs_q', show (10 : ℚ) = ((10 : ℕ) : ℚ) by norm_num,
        Int.log_zpow (by norm_num : 1 < 10)]
    have hdd' : digitsToDecimals ((m : ℚ) / 10 ^ dd) digits = dd - 1 := by
      rw [digitsToDecimals, hlog']
      omega
    rw [hq', roundSigScalar, if_neg hq'ne, hdd']
    rcases (abs_eq hN₂pos.le).mp hEq with hm2 | hm2
    · have hrepr : (m : ℚ) / 10 ^ dd = ((N₁ : ℤ) : ℚ) / 10 ^ (dd - 1) := by
        rw [hm2, hN₂cast, hN₁cast, div_eq_div_iff (hpow_pos dd).ne'
          (hpow_pos (dd - 1)).ne', ← zpow_add₀ htenne, ← zpow_add₀ htenne]
        congr 1
        omega
      rw [hrepr, npRound_int_div]
    · have hrepr : (m : ℚ) / 10 ^ dd = ((-N₁ : ℤ) : ℚ) / 10 ^ (dd - 1) := by
        rw [hm2]
        push_cast
        rw [hN₂cast, hN₁cast, neg_div, neg_div, neg_inj,
          div_eq_div_iff (hpow_pos dd).ne' (hpow_pos (dd - 1)).ne',
          ← zpow_add₀ htenne, ← zpow_add₀ htenne]
        congr 1
        omega
      rw [hrepr, npRound_int_div]
  · -- same decade: the second rounding is exact
    have h1 : (10 : ℚ) ^ e ≤ |(m : ℚ) / 10 ^ dd| := by
      rw [habsq', habsm_cast]
      rw [div_eq_mul_inv, ← zpow_neg]
      calc (10 : ℚ) ^ e = 10 ^ (digits - 1) * 10 ^ (-dd) := by
            rw [← zpow_add₀ htenne]
            congr 1
            omega
        _ ≤ ((|m| : ℤ) : ℚ) * 10 ^ (-dd) := by
            apply mul_le_mul_of_nonneg_right _ (hpow_pos (-dd)).le
            rw [← hN₁cast]
            exact_mod_cast hm_lb
    have h2 : |(m : ℚ) / 10 ^ dd| < (10 : ℚ) ^ (e + 1) := by
      rw [habsq', habsm_cast]
      rw [div_eq_mul_inv, ← zpow_neg]
      calc ((|m| : ℤ) : ℚ) * 10 ^ (-dd) < ((N₂ : ℤ) : ℚ) * 10 ^ (-dd) := by
            apply mul_lt_mul_of_pos_right _ (hpow_pos (-dd))
            exact_mod_cast hLt
        _ = 10 ^ (e + 1) := by
            rw [hN₂cast, ← zpow_add₀ htenne]
            congr 1
            omega
    have hlog' : Int.log 10 |(m : ℚ) / 10 ^ dd| = e := by
      have hpos' : (0 : ℚ) < |(m : ℚ) / 10 ^ dd| := abs_pos.mpr hq'ne
      have hle := (Int.zpow_le_iff_le_log (by norm_num : 1 < 10) hpos').mp h1
      have hlt := (Int.lt_zpow_iff_log_lt (by norm_num : 1 < 10) hpos').mp h2
      omega
    have hdd' : digitsToDecimals ((m : ℚ) / 10 ^ dd) digits = dd := by
      rw [digitsToDecimals, hlog']
      omega
    rw [hq', roundSigScalar, if_neg hq'ne, hdd', npRound_int_div]

/-- C5: rounding to `digits ≥ 1` significant figures is idempotent on
finite nonzero scalars, `round_to_significant(0, digits)` returns `0`,
and any input containing a non-finite entry fails with the
`ValueError` of `round_to_significant`. -/
theorem round_to_significant_spec (q : ℚ) (digits : ℤ) (hq : q ≠ 0)
    (hd : 1 ≤ digits) :
    round_to_significant (.scalar (.finite (roundSigScalar q digits))) digits
      = .ok (.scalar (roundSigScalar q digits)) ∧
    round_to_significant (.scalar (.finite 0)) digits = .ok (.scalar 0) ∧
    round_to_significant (.scalar .nonfinite) digits
      = .error "Only float and int types for rounding" ∧
    (∀ pre post : List FloatVal,
      round_to_significant (.array (pre ++ .nonfinite :: post)) digits
        = .error "Only float and int types for rounding") := by
  refine ⟨?_, ?_, rfl, ?_⟩
  · simp only [round_to_significant,
      roundSigScalar_idempotent q digits hq hd]
  · simp [round_to_significant, roundSigScalar]
  · intro pre post
    simp [round_to_significant, FloatVal.isFinite]

theorem round_to_significant_spec_witness :
    ((999 / 100 : ℚ) ≠ 0 ∧ (1 : ℤ) ≤ 1) ∧
    (round_to_significant
        (.scalar (.finite (roundSigScalar (999 / 100) 1))) 1
      = .ok (.scalar (roundSigScalar (999 / 100) 1)) ∧
    round_to_significant (.scalar (.finite 0)) 1 = .ok (.scalar 0) ∧
    round_to_significant (.scalar .nonfinite) 1
      = .error "Only float and int types for rounding" ∧
    (∀ pre post : List FloatVal,
      round_to_significant (.array (pre ++ .nonfinite :: post)) 1
        = .error "Only float and int types for rounding")) :=
  ⟨⟨by norm_num, le_refl 1⟩,
    round_to_significant_spec (999 / 100) 1 (by norm_num) (le_refl 1)⟩

/-! ### Theorems for the relative-intensity round trips (claim C4) -/

/-- C4 counterexample: for `rtype="weber"`, `bg_ints = [1]` and
`X = [-1/2]` (which satisfies `X + 1 >= 0` componentwise), the round trip
`_to_relative_intensity(_to_absolute_intensity(X))` hits the
`assert np.all(X >= 0)` in `_to_relative_intensity` and raises instead of
returning `X`. -/
theorem relative_intensity_weber_counterexample :
    (∀ i : Fin 1, (0 : ℝ) < (fun _ : Fin 1 => (1 : ℝ)) i) ∧
    (∀ i : Fin 1, (0 : ℝ) ≤ (fun _ : Fin 1 => -(1 : ℝ) / 2) i + 1) ∧
    (toAbsoluteIntensity "weber" (fun _ : Fin 1 => (1 : ℝ))
        (fun _ => -(1 : ℝ) / 2)).bind
      (toRelativeIntensity "weber" (fun _ : Fin 1 => (1 : ℝ))) = none := by
  refine ⟨fun i => by norm_num, fun i => by norm_num, ?_⟩
  have habs : toAbsoluteIntensity "weber" (fun _ : Fin 1 => (1 : ℝ))
      (fun _ => -(1 : ℝ) / 2)
      = some (fun _ => -(1 : ℝ) / 2 * 1 + 1) := by
    simp [toAbsoluteIntensity]
  rw [habs]
  simp only [Option.some_bind, toRelativeIntensity]
  rw [if_neg]
  intro hall
  have h0 := hall 0
  norm_num at h0

/-- C4 amended: with strictly positive `bg_ints`, the weber round trip
`_to_relative_intensity(_to_absolute_intensity(X)) = X` holds exactly for
componentwise `X >= 0` (not `X + 1 >= 0`: the assertion in
`_to_relative_intensity` checks the recovered relative value itself); the
log round trip holds for every real `X`; and the inverse direction
`_to_absolute_intensity(_to_relative_intensity(X)) = X` for `rtype="log"`
holds for strictly positive `X`. -/
theorem relative_intensity_round_trips {n : ℕ} (bg X : Fin n → ℝ)
    (hbg : ∀ i, 0 < bg i) :
    ((∀ i, 0 ≤ X i) →
      (toAbsoluteIntensity "weber" bg X).bind
        (toRelativeIntensity "weber" bg) = some X) ∧
    ((toAbsoluteIntensity "log" bg X).bind
      (toRelativeIntensity "log" bg) = some X) ∧
    ((∀ i, 0 < X i) →
      (toRelativeIntensity "log" bg X).bind
        (toAbsoluteIntensity "log" bg) = some X) := by
  refine ⟨?_, ?_, ?_⟩
  · intro hX
    have habs : toAbsoluteIntensity "weber" bg X
        = some (fun i => X i * bg i + bg i) := by
      simp [toAbsoluteIntensity]
    have hq : ∀ i, (X i * bg i + bg i - bg i) / bg i = X i := fun i => by
      rw [add_sub_cancel_right, mul_div_cancel_right₀ _ (hbg i).ne']
    rw [habs]
    simp only [Option.some_bind, toRelativeIntensity, reduceIte]
    rw [if_pos (fun i => by rw [hq i]; exact hX i), if_neg (by simp)]
    exact congrArg some (funext hq)
  · have habs : toAbsoluteIntensity "log" bg X
        = some (fun i => Real.exp (X i) * bg i) := by
      simp [toAbsoluteIntensity]
    have hq : ∀ i, Real.exp (X i) * bg i / bg i = Real.exp (X i) :=
      fun i => mul_div_cancel_right₀ _ (hbg i).ne'
    rw [habs]
    simp only [Option.some_bind, toRelativeIntensity]
    simp only [if_neg (by simp : ¬("log" : String) = "weber")]
    rw [if_pos (fun i => by rw [hq i]; exact (Real.exp_pos _).le),
      if_pos (by simp)]
    exact congrArg some (funext fun i => by rw [hq i, Real.log_exp])
  · intro hXpos
    have hrel : toRelativeIntensity "log" bg X
        = some (fun i => Real.log (X i / bg i)) := by
      simp only [toRelativeIntensity]
      simp only [if_neg (by simp : ¬("log" : String) = "weber")]
      rw [if_pos (fun i => (div_pos (hXpos i) (hbg i)).le), if_pos (by simp)]
    rw [hrel]
    simp only [Option.some_bind, toAbsoluteIntensity]
    rw [if_pos (by simp)]
    exact congrArg some (funext fun i => by
      rw [Real.exp_log (div_pos (hXpos i) (hbg i)),
        div_mul_cancel₀ _ (hbg i).ne'])

theorem relative_intensity_round_trips_witness :
    (∀ i : Fin 1, (0 : ℝ) < (fun _ : Fin 1 => (2 : ℝ)) i) ∧
    (∀ i : Fin 1, (0 : ℝ) ≤ (fun _ : Fin 1 => (1 : ℝ)) i) ∧
    (toAbsoluteIntensity "weber" (fun _ : Fin 1 => (2 : ℝ))
        (fun _ : Fin 1 => (1 : ℝ))).bind
      (toRelativeIntensity "weber" (fun _ : Fin 1 => (2 : ℝ)))
      = some (fun _ : Fin 1 => (1 : ℝ)) ∧
    (toAbsoluteIntensity "log" (fun _ : Fin 1 => (2 : ℝ))
        (fun _ : Fin 1 => (1 : ℝ))).bind
      (toRelativeIntensity "log" (fun _ : Fin 1 => (2 : ℝ)))
      = some (fun _ : Fin 1 => (1 : ℝ)) := by
  have hbg : ∀ i : Fin 1, (0 : ℝ) < (fun _ : Fin 1 => (2 : ℝ)) i :=
    fun i => by norm_num
  have hX : ∀ i : Fin 1, (0 : ℝ) ≤ (fun _ : Fin 1 => (1 : ℝ)) i :=
    fun i => by norm_num
  have h := relative_intensity_round_trips
    (fun _ : Fin 1 => (2 : ℝ)) (fun _ : Fin 1 => (1 : ℝ)) hbg
  exact ⟨hbg, hX, h.1 hX, h.2.1⟩

/-! ### Theorems for `compute_mean_correlation` (claim C3) -/

theorem centeredGram_diag_nonneg {m d : ℕ} (points : Fin m → Fin d → ℝ)
    (j : Fin d) : 0 ≤ centeredGram points j j :=
  Finset.sum_nonneg fun i _ => mul_self_nonneg _

theorem corrcoef_diag {m d : ℕ} (points : Fin m → Fin d → ℝ) (j : Fin d)
    (h : centeredGram points j j ≠ 0) : corrcoef points j j = 1 := by
  unfold corrcoef
  rw [Real.sqrt_mul_self (centeredGram_diag_nonneg points j)]
  exact div_self h

theorem exampleCenteredGram (j k : Fin 2) :
    centeredGram examplePoints j k = 1 / 2 := by
  simp [centeredGram, colMean, examplePoints, Fin.sum_univ_two]
  norm_num

theorem exampleCorrcoef (j k : Fin 2) : corrcoef examplePoints j k = 1 := by
  rw [corrcoef, exampleCenteredGram, exampleCenteredGram, exampleCenteredGram,
    show (1 / 2 : ℝ) * (1 / 2) = (1 / 2) ^ 2 by ring,
    Real.sqrt_sq (by norm_num)]
  norm_num

/-- C3 counterexample: at `points = [[0, 0], [1, 1]]` (two columns, each
of nonzero variance) the code returns `1/2` — the off-diagonal sum over
all `d² = 4` entries — whereas the mean of the off-diagonal entries of
the correlation matrix is `1`. -/
theorem compute_mean_correlation_counterexample :
    (∀ j, centeredGram examplePoints j j ≠ 0) ∧
    compute_mean_correlation examplePoints = 1 / 2 ∧
    specMeanOffDiagonal examplePoints = 1 ∧
    compute_mean_correlation examplePoints
      ≠ specMeanOffDiagonal examplePoints := by
  refine ⟨fun j => by rw [exampleCenteredGram]; norm_num, ?_, ?_, ?_⟩
  · simp only [compute_mean_correlation, Fin.sum_univ_two, exampleCorrcoef]
    norm_num
  · simp only [specMeanOffDiagonal, Fin.sum_univ_two, exampleCorrcoef]
    norm_num
  · simp only [compute_mean_correlation, specMeanOffDiagonal,
      Fin.sum_univ_two, exampleCorrcoef]
    norm_num

/-- C3 amended: for a points matrix whose columns all have nonzero
variance, `compute_mean_correlation` returns the sum of the off-diagonal
entries of the feature correlation matrix divided by `d²` (the mean over
all `d²` entries after zeroing the diagonal), not by the number `d² - d`
of off-diagonal entries. -/
theorem compute_mean_correlation_eq_offdiag_sum_div_sq {m d : ℕ}
    (points : Fin m → Fin d → ℝ)
    (hvar : ∀ j, centeredGram points j j ≠ 0) :
    compute_mean_correlation points
      = (∑ j, ∑ k, if j = k then 0 else corrcoef points j k)
        / ((d : ℝ) * d) := by
  unfold compute_mean_correlation
  congr 1
  refine Finset.sum_congr rfl fun j _ => Finset.sum_congr rfl fun k _ => ?_
  by_cases hjk : j = k
  · subst hjk
    simp [corrcoef_diag points j (hvar j)]
  · simp [hjk]

theorem compute_mean_correlation_eq_offdiag_sum_div_sq_witness :
    (∀ j, centeredGram examplePoints j j ≠ 0) ∧
    compute_mean_correlation examplePoints
      = (∑ j, ∑ k, if j = k then 0 else corrcoef examplePoints j k)
        / ((2 : ℕ) * 2 : ℝ) := by
  have hvar : ∀ j, centeredGram examplePoints j j ≠ 0 := fun j => by
    rw [exampleCenteredGram]
    norm_num
  exact ⟨hvar,
    compute_mean_correlation_eq_offdiag_sum_div_sq examplePoints hvar⟩

/-! ### Theorems for the in-place mutation of `_set_values` (claim C9) -/

theorem dictGet_dictSet_self (d : List (String × PyVal)) (key : String)
    (v : PyVal) : dictGet (dictSet d key v) key = some v := by
  induction d with
  | nil => simp [dictSet, dictGet]
  | cons kv rest ih =>
    by_cases hk : kv.1 = key
    · simp [dictSet, dictGet, hk]
    · simp [dictSet, dictGet, hk, ih]

theorem dictGet_dictSet_ne (d : List (String × PyVal)) {key key' : String}
    (v : PyVal) (hne : key ≠ key') :
    dictGet (dictSet d key v) key' = dictGet d key' := by
  induction d with
  | nil => simp [dictSet, dictGet, hne]
  | cons kv rest ih =>
    by_cases hk : kv.1 = key
    · simp [dictSet, dictGet, hk, hne]
    · simp [dictSet, dictGet, hk, ih]

theorem PyHeap.get_setEntry_self (h : PyHeap) (r : ℕ) (key : String)
    (v : PyVal) : (h.setEntry r key v).get r = dictSet (h.get r) key v := by
  simp [PyHeap.setEntry, PyHeap.get]

theorem PyHeap.get_setEntry_ne (h : PyHeap) {r r' : ℕ} (key : String)
    (v : PyVal) (hne : r' ≠ r) :
    (h.setEntry r key v).get r' = h.get r' := by
  simp [PyHeap.setEntry, PyHeap.get, Function.update_noteq hne]

theorem setValuesFold_spec (vRef pRef : ℕ) (hne : pRef ≠ vRef) :
    ∀ (es : List (String × PyVal)) (hh : PyHeap),
      (es.map Prod.fst).Nodup →
      (∀ kv ∈ es, ∀ vp, dictGet (hh.get pRef) kv.1 = some vp →
        vp.toList.length = kv.2.toList.length) →
      ∃ h', es.foldlM (setValuesStep vRef pRef) hh = .ok h' ∧
        (∀ r, r ≠ vRef → r ≠ pRef → h'.get r = hh.get r) ∧
        (∀ key, key ∉ es.map Prod.fst →
          dictGet (h'.get vRef) key = dictGet (hh.get vRef) key ∧
          dictGet (h'.get pRef) key = dictGet (hh.get pRef) key) ∧
        (∀ kv ∈ es,
          dictGet (h'.get vRef) kv.1 = some (.nparray kv.2.toList) ∧
          dictGet (h'.get pRef) kv.1 = some (.nparray
            (probUpdate (dictGet (hh.get pRef) kv.1) kv.2.toList))) := by
  intro es
  induction es with
  | nil =>
    intro hh _ _
    exact ⟨hh, rfl, fun _ _ _ => rfl, fun _ _ => ⟨rfl, rfl⟩, by simp⟩
  | cons kv rest ih =>
    intro hh hnodup hlen
    have hknotin : kv.1 ∉ rest.map Prod.fst := (List.nodup_cons.mp hnodup).1
    have hndrest : (rest.map Prod.fst).Nodup := (List.nodup_cons.mp hnodup).2
    set hh1 := hh.setEntry vRef kv.1 (.nparray kv.2.toList) with hh1def
    have hgetp1 : hh1.get pRef = hh.get pRef :=
      PyHeap.get_setEntry_ne hh kv.1 _ hne
    set hh2 := hh1.setEntry pRef kv.1
      (.nparray (probUpdate (dictGet (hh.get pRef) kv.1) kv.2.toList))
      with hh2def
    have hstep : setValuesStep vRef pRef hh kv = .ok hh2 := by
      cases hvp : dictGet (hh.get pRef) kv.1 with
      | none =>
        rw [hh2def, hvp]
        simp [setValuesStep, ← hh1def, hgetp1, hvp, probUpdate]
      | some vp =>
        have harr : vp.toList.length = kv.2.toList.length :=
          hlen kv (List.mem_cons_self kv rest) vp hvp
        rw [hh2def, hvp]
        simp [setValuesStep, ← hh1def, hgetp1, hvp, probUpdate, harr]
    have hgetp2 : hh2.get pRef
        = dictSet (hh.get pRef) kv.1
          (.nparray (probUpdate (dictGet (hh.get pRef) kv.1) kv.2.toList)) := by
      rw [hh2def, PyHeap.get_setEntry_self, hgetp1]
    have hgetv2 : hh2.get vRef
        = dictSet (hh.get vRef) kv.1 (.nparray kv.2.toList) := by
      rw [hh2def, PyHeap.get_setEntry_ne _ _ _ (Ne.symm hne), hh1def,
        PyHeap.get_setEntry_self]
    have hpRef_other : ∀ kv' ∈ rest,
        dictGet (hh2.get pRef) kv'.1 = dictGet (hh.get pRef) kv'.1 := by
      intro kv' hkv'
      have : kv.1 ≠ kv'.1 := fun he =>
        hknotin (he ▸ List.mem_map_of_mem Prod.fst hkv')
      rw [hgetp2, dictGet_dictSet_ne _ _ this]
    obtain ⟨h', hfold, hframe, hother, hdone⟩ :=
      ih hh2 hndrest (fun kv' hkv' vp hvp => by
        rw [hpRef_other kv' hkv'] at hvp
        exact hlen kv' (List.mem_cons_of_mem kv hkv') vp hvp)
    refine ⟨h', ?_, ?_, ?_, ?_⟩
    · rw [List.foldlM_cons, hstep]
      exact hfold
    · intro r hrv hrp
      rw [hframe r hrv hrp, hh2def, PyHeap.get_setEntry_ne _ _ _ hrp,
        hh1def, PyHeap.get_setEntry_ne _ _ _ hrv]
    · intro key hkey
      have hkne : kv.1 ≠ key := fun he => hkey (he ▸ List.mem_cons_self _ _)
      have hkrest : key ∉ rest.map Prod.fst := fun hm =>
        hkey (List.mem_cons_of_mem _ hm)
      obtain ⟨hv, hp⟩ := hother key hkrest
      refine ⟨?_, ?_⟩
      · rw [hv, hgetv2, dictGet_dictSet_ne _ _ hkne]
      · rw [hp, hgetp2, dictGet_dictSet_ne _ _ hkne]
    · intro kv' hkv'
      rcases List.mem_cons.mp hkv' with rfl | hmem
      · obtain ⟨hv, hp⟩ := hother kv'.1 hknotin
        refine ⟨?_, ?_⟩
        · rw [hv, hgetv2, dictGet_dictSet_self]
        · rw [hp, hgetp2, dictGet_dictSet_self]
      · obtain ⟨hv, hp⟩ := hdone kv' hmem
        exact ⟨hv, by rw [hp, hpRef_other kv' hmem]⟩

/-- C9: called with a dict for `values` and a supplied `values_probs`
dict, `_set_values` mutates the caller's dictionaries in place: the
returned references are the argument references, every entry of the
`values` dict is replaced by the array version of itself, every entry of
`values_probs` for a channel of `values` is overwritten with its
re-normalized probability array (missing channels filled with the
uniform distribution), and no other heap cell changes. -/
theorem set_random_step_values_mutates_in_place
    (h : PyHeap) (vRef pRef : ℕ) (bv : ℚ) (hne : pRef ≠ vRef)
    (hnodup : ((h.get vRef).map Prod.fst).Nodup)
    (hlen : ∀ kv ∈ h.get vRef, ∀ vp, dictGet (h.get pRef) kv.1 = some vp →
      vp.toList.length = kv.2.toList.length) :
    ∃ h' : PyHeap,
      setRandomStepValues h vRef (some pRef) bv
        = .ok (h', vRef, List.replicate (h.get vRef).length bv, pRef) ∧
      (∀ kv ∈ h.get vRef,
        dictGet (h'.get vRef) kv.1 = some (.nparray kv.2.toList) ∧
        dictGet (h'.get pRef) kv.1 = some (.nparray
          (probUpdate (dictGet (h.get pRef) kv.1) kv.2.toList))) ∧
      (∀ key, key ∉ (h.get vRef).map Prod.fst →
        dictGet (h'.get pRef) key = dictGet (h.get pRef) key) ∧
      (∀ r, r ≠ vRef → r ≠ pRef → h'.get r = h.get r) := by
  obtain ⟨h', hfold, hframe, hother, hdone⟩ :=
    setValuesFold_spec vRef pRef hne (h.get vRef) h hnodup hlen
  refine ⟨h', ?_, hdone, fun key hkey => (hother key hkey).2, hframe⟩
  simp [setRandomStepValues, hfold]

theorem set_random_step_values_mutates_in_place_witness :
    ∃ h' : PyHeap,
      setRandomStepValues exampleHeap 0 (some 1) 0
        = .ok (h', 0, List.replicate (exampleHeap.get 0).length 0, 1) ∧
      (∀ kv ∈ exampleHeap.get 0,
        dictGet (h'.get 0) kv.1 = some (.nparray kv.2.toList) ∧
        dictGet (h'.get 1) kv.1 = some (.nparray
          (probUpdate (dictGet (exampleHeap.get 1) kv.1) kv.2.toList))) ∧
      (∀ key, key ∉ (exampleHeap.get 0).map Prod.fst →
        dictGet (h'.get 1) key = dictGet (exampleHeap.get 1) key) ∧
      (∀ r, r ≠ 0 → r ≠ 1 → h'.get r = exampleHeap.get r) :=
  set_random_step_values_mutates_in_place exampleHeap 0 1 0
    (by norm_num)
    (by simp [exampleHeap, PyHeap.get])
    (by
      intro kv hkv vp hvp
      simp only [exampleHeap, PyHeap.get] at hkv hvp
      norm_num at hkv hvp
      subst hkv
      simp only [dictGet, if_pos rfl, if_true, Option.some.injEq] at hvp
      simp [← hvp, PyVal.toList])

/-! ### Theorems for the random-switch empty event table (claim C10) -/

/-- C10: if every channel's first truncated-normal interval draw is at
least `total_dur`, no channel accumulates any event, `_create_events`
produces an event table with no rows, and `create()` fails on that empty
table instead of returning an empty stimulus. -/
theorem random_switch_empty_events_create_fails
    (totalDur startDelay endDur rate : ℚ) (iterations : ℕ)
    (channelNames : List String) (baseline : List ℚ)
    (channels : List (String × ℚ × List (ℚ × ℚ)))
    (h : ∀ ch ∈ channels, totalDur ≤ ch.2.1) :
    channels.flatMap
      (fun ch => genChannelEvents totalDur ch.1 ch.2.2 ch.2.1) = [] ∧
    randomSwitchCreate totalDur startDelay endDur rate iterations
      channelNames baseline channels = .error "KeyError: delay" := by
  have hflat : channels.flatMap
      (fun ch => genChannelEvents totalDur ch.1 ch.2.2 ch.2.1) = [] := by
    rw [List.flatMap_eq_nil_iff]
    intro ch hch
    rcases hd : ch.2.2 with _ | ⟨⟨dur, value⟩, rest⟩ <;>
      simp [genChannelEvents, not_lt.mpr (h ch hch)]
  refine ⟨hflat, ?_⟩
  simp only [randomSwitchCreate, randomSwitchCreateEvents, hflat]
  rfl

theorem random_switch_empty_events_create_fails_witness :
    (∀ ch ∈ [(("a", 5, [((1 : ℚ), (0 : ℚ))]) : String × ℚ × List (ℚ × ℚ))],
      (5 : ℚ) ≤ ch.2.1) ∧
    randomSwitchCreate 5 0 0 10 1 ["a"] [0]
      [("a", 5, [((1 : ℚ), (0 : ℚ))])] = .error "KeyError: delay" := by
  have h : ∀ ch ∈ [(("a", 5, [((1 : ℚ), (0 : ℚ))]) : String × ℚ × List (ℚ × ℚ))],
      (5 : ℚ) ≤ ch.2.1 := by
    intro ch hch
    simp only [List.mem_singleton] at hch
    subst hch
    norm_num
  exact ⟨h, (random_switch_empty_events_create_fails 5 0 0 10 1 ["a"] [0] _ h).2⟩

theorem get_source_idcs_spec_witness :
    2 ≤ 4 ∧
    ((_get_source_idcs 4 2).length = Nat.choose 4 2 ∧
      (∀ row ∈ _get_source_idcs 4 2, row.length = 4 ∧ row.count true = 2) ∧
      (_get_source_idcs 4 2).Nodup) :=
  ⟨by norm_num, get_source_idcs_spec 4 2 (by norm_num)⟩

end Dreye
